import Mathlib

/-!
Verification development for the webtoon-dl downloader (Go sources
`src/main.go` and `src/unnamed/part_000`, two revisions of the same
program).  The pure episode-discovery / batching pipeline is embedded
shallowly: Go strings become `List Char`, network collaborators become
function parameters, the goroutine pool becomes an explicit sequential
schedule, and `os.Exit` / `panic` / `recover` become explicit outcome
constructors.  Where the two revisions differ the relevant definition
says which file it embeds.
-/

/-- Go strings are modelled character-wise. -/
abbrev Str := List Char

/-- Character-class test for the regex range [0-9]. -/
def isDigitCh (c : Char) : Bool := ('0' ≤ c) && (c ≤ '9')

/-- Numeric value of a digit list, most significant first
(the semantics of `strconv.Atoi` on an all-digit string, ignoring range). -/
def digitsVal (ds : Str) : Nat :=
  ds.foldl (fun acc c => 10 * acc + (c.toNat - ('0').toNat)) 0

/-- Largest value representable in Go's 64-bit `int`; `strconv.Atoi`
returns an error (and `episodeNo` then returns 0) beyond it. -/
def goMaxInt : Nat := 2 ^ 63 - 1

/-- Model of `strconv.Atoi` restricted to the all-digit strings produced by the
regex capture group `([0-9]+)`: fails exactly on the empty string and on
values exceeding Go's `int` range. -/
def atoiDigits (ds : Str) : Option Nat :=
  if ds.isEmpty then none
  else if goMaxInt < digitsVal ds then none
  else some (digitsVal ds)

/-- The literal part of the regex `episode_no=([0-9]+)` in `episodeNo`. -/
def episodeNoPat : Str := ("episode_no=").data

/-- Drop a literal pattern from the front of a string; `none` when the
string does not start with the pattern. -/
def dropPat : Str → Str → Option Str
  | [], s => some s
  | _ :: _, [] => none
  | p :: ps, c :: cs => if c = p then dropPat ps cs else none

/-- Leftmost match of the regex `episode_no=([0-9]+)`
(`regexp.FindStringSubmatch` in `episodeNo`, src/unnamed/part_000
lines 349-365): scan left to right for a position where the literal is
followed by at least one digit, and return the maximal digit run there. -/
def findEpisodeDigits : Str → Option Str
  | [] => none
  | c :: cs =>
    match dropPat episodeNoPat (c :: cs) with
    | some rest =>
      let ds := rest.takeWhile isDigitCh
      if ds.isEmpty then findEpisodeDigits cs else some ds
    | none => findEpisodeDigits cs

/-- Model of `episodeNo` (src/unnamed/part_000 lines 349-365, identical in
src/main.go lines 338-349): extract the first `episode_no=<digits>`
occurrence and convert with `strconv.Atoi`; every failure path returns 0. -/
def episodeNo (episodeLink : Str) : Nat :=
  match findEpisodeDigits episodeLink with
  | none => 0
  | some ds =>
    match atoiDigits ds with
    | none => 0
    | some n => n

/-- Model of `strings.Contains hay needle` on the character-wise model. -/
def strContains (hay needle : Str) : Bool :=
  match hay with
  | [] => needle.isEmpty
  | _ :: t => needle.isPrefixOf hay || strContains t needle

/-- One `(url, title)` catalog entry — the `EpisodeInfo` struct of
src/unnamed/part_000 lines 52-55.  Go struct equality (the map key
relation) is component-wise equality. -/
structure EpisodeInfo where
  url : Str
  title : Str
deriving DecidableEq, Inhabited

/-- One planned output file — the `EpisodeBatch` struct
(src/unnamed/part_000 lines 45-50). -/
structure EpisodeBatch where
  imgLinks : List Str
  title : Str
  minEp : Nat
  maxEp : Nat
deriving DecidableEq, Inhabited

/-- Model of `createTitle` (src/unnamed/part_000 lines 301-310, identical in
src/main.go lines 274-283): concatenate every title followed by "_",
then slice off the last byte.  On the empty list the Go code panics on
the slice bound -1; the model returns `[]` there, and the only call
site (`getEpisodeBatches`) passes non-empty chunks only. -/
def createTitle (episodetitles : List Str) : Str :=
  (episodetitles.foldl (fun acc t => acc ++ t ++ [ '_' ]) []).dropLast

/-- The chunking loop of `getEpisodeBatches` (src/unnamed/part_000
lines 284-295): `for start := 0; start < len; start += epsPerBatch`
slicing `[start : min (start+epsPerBatch) len]`.  With `epsPerBatch = 0`
the Go loop never advances; `parseOpts` rejects that value
(`eps-per-file must be greater than or equal to 1`), and the model
returns `[]` for it. -/
def planChunks : Nat → List α → List (List α)
  | _, [] => []
  | 0, _ :: _ => []
  | e + 1, x :: xs => (x :: xs).take (e + 1) :: planChunks (e + 1) (xs.drop e)
termination_by _ l => l.length
decreasing_by
  simp only [List.length_cons, List.length_drop]
  omega

/-- The batch constructed from one chunk of desired episodes
(src/unnamed/part_000 lines 289-294).  `imgsOf` abstracts the network
collaborator `getImgLinksForEpisode`; `getImgLinksForEpisodes`
concatenates its results over the chunk in order. -/
def mkBatch (imgsOf : Str → List Str) (chunk : List EpisodeInfo) : EpisodeBatch :=
  { imgLinks := (chunk.map (fun e => imgsOf e.url)).flatten
    title := createTitle (chunk.map (fun e => e.title))
    minEp := episodeNo (chunk.headD default).url
    maxEp := episodeNo (chunk.getLastD default).url }

/-- The viewer-URL marker tested by `strings.Contains(url, "/viewer")`. -/
def viewerPat : Str := ("/viewer").data

/-- Error value of `errors.New("No episode found")`
(src/unnamed/part_000 line 270). -/
def noEpisodeMsg : Str := ("No episode found").data

/-- Range filter of `getEpisodeBatches` (src/unnamed/part_000
lines 259-267): keep catalog entries whose extracted number lies in
`[minEp, maxEp]` inclusive. -/
def filterRange (catalog : List EpisodeInfo) (minEp maxEp : Nat) : List EpisodeInfo :=
  catalog.filter (fun e => decide (minEp ≤ episodeNo e.url) && decide (episodeNo e.url ≤ maxEp))

/-- Model of `getEpisodeBatches` (src/unnamed/part_000 lines 243-299).  The
network calls are abstracted: `imgsOf` stands for
`getImgLinksForEpisode` and `catalog` for the result of
`getAllEpisodeLinks url` (modelled separately below).  The
`actualMinEp`/`actualMaxEp` computation is logging-only and carries no
data flow, so it is omitted.  In the viewer branch the Go struct
literal leaves `title` at its zero value `""`. -/
def getEpisodeBatches (imgsOf : Str → List Str) (catalog : List EpisodeInfo)
    (url : Str) (minEp maxEp epsPerBatch : Nat) : Except Str (List EpisodeBatch) :=
  if strContains url viewerPat then
    .ok [{ imgLinks := imgsOf url, title := [], minEp := episodeNo url, maxEp := episodeNo url }]
  else
    let desired := filterRange catalog minEp maxEp
    if desired.isEmpty then .error noEpisodeMsg
    else .ok ((planChunks epsPerBatch desired).map (mkBatch imgsOf))

/-- The per-page insertion loop of `getAllEpisodeLinks`
(src/unnamed/part_000 lines 323-330): entries are added to the
accumulated set one by one; the first entry already present sets
`foundLastPage` and breaks out, discarding the rest of the page.  The
Go map is modelled as the insertion-ordered list `acc` (only
membership and final contents matter; map iteration order is
nondeterministic and is followed by a sort). -/
def insertFresh [DecidableEq α] (acc : List α) : List α → List α × Bool
  | [] => (acc, false)
  | e :: es => if e ∈ acc then (acc, true) else insertFresh (acc ++ [e]) es

/-- The paging loop of `getAllEpisodeLinks` (src/unnamed/part_000
lines 316-336): starting at page 1, fetch each listing page
(`pages page = none` models a fetch error, which breaks the loop) and
insert its entries until a duplicate stops the crawl.  The Go loop has
no bound; `fuel` is an explicit iteration budget and every theorem
holds for any sufficiently large value. -/
def crawlLoop [DecidableEq α] (pages : Nat → Option (List α)) :
    Nat → Nat → List α → List α
  | 0, _, acc => acc
  | fuel + 1, page, acc =>
    match pages page with
    | none => acc
    | some eps =>
      match insertFresh acc eps with
      | (acc2, true) => acc2
      | (acc2, false) => crawlLoop pages fuel (page + 1) acc2

/-- Sort key of the final `sort.Slice` (src/unnamed/part_000
lines 343-345): extracted episode number, ascending. -/
def epLe (a b : EpisodeInfo) : Prop := episodeNo a.url ≤ episodeNo b.url

instance : DecidableRel epLe := fun _ _ => Nat.decLe _ _

instance : IsTotal EpisodeInfo epLe :=
  ⟨fun a b => Nat.le_total (episodeNo a.url) (episodeNo b.url)⟩

instance : IsTrans EpisodeInfo epLe := ⟨fun _ _ _ => Nat.le_trans⟩

/-- Model of `getAllEpisodeLinks` of src/unnamed/part_000 (lines 311-347): the
dedup set is keyed by the whole `EpisodeInfo` struct (url AND title).
`sort.Slice` is an unstable sort; the model produces one concrete
sorted permutation, which is all the claims depend on. -/
def getAllEpisodeLinks (pages : Nat → Option (List EpisodeInfo)) (fuel : Nat) :
    List EpisodeInfo :=
  List.insertionSort epLe (crawlLoop pages fuel 1 [])

/-- Sort key of the final `sort.Slice` in src/main.go lines 330-332. -/
def urlLe (a b : Str) : Prop := episodeNo a ≤ episodeNo b

instance : DecidableRel urlLe := fun _ _ => Nat.decLe _ _

instance : IsTotal Str urlLe :=
  ⟨fun a b => Nat.le_total (episodeNo a) (episodeNo b)⟩

instance : IsTrans Str urlLe := ⟨fun _ _ _ => Nat.le_trans⟩

/-- Model of `getAllEpisodeLinks` of src/main.go (lines 284-336): same loop, but
the dedup set `episodeLinkSet` is keyed by the URL string alone. -/
def getAllEpisodeLinksMain (pages : Nat → Option (List Str)) (fuel : Nat) :
    List Str :=
  List.insertionSort urlLe (crawlLoop pages fuel 1 [])

/-- The fixed filename placeholder of the stillcut path template
(`strings.ReplaceAll(matches[1], "{=filename}", ...)`,
src/unnamed/part_000 line 192). -/
def placeholderPat : Str := ("\x7b=filename\x7d").data

/-- Model of `strings.ReplaceAll s placeholderPat rep`: replace every
non-overlapping occurrence, scanning left to right. -/
def replaceAllFilename (rep : Str) : Str → Str
  | [] => []
  | c :: cs =>
    if placeholderPat.isPrefixOf (c :: cs) then
      rep ++ replaceAllFilename rep ((c :: cs).drop placeholderPat.length)
    else c :: replaceAllFilename rep cs
termination_by s => s.length
decreasing_by
  all_goals have h11 : placeholderPat.length = 11 := by decide
  all_goals simp only [List.length_drop, List.length_cons, h11]
  all_goals omega

/-- Go map lookup `motionToon.Assets.Image[k]` on the association-list
model of the manifest; a missing key yields the zero value `""`. -/
def lookupAsset : List (Str × Str) → Str → Str
  | [], _ => []
  | (k, v) :: rest, key => if k = key then v else lookupAsset rest key

/-- Model of `sort.Strings` (src/unnamed/part_000 line 178): ascending
lexicographic order on the key strings. -/
def sortStrings (l : List Str) : List Str :=
  List.insertionSort (fun a b => a ≤ b) l

/-- The pure tail of `getOzPageImgLinks` (src/unnamed/part_000
lines 173-194): collect the manifest keys, sort them, and substitute
each key's filename into the extracted path template.  The manifest
(`MotiontoonJson.Assets.Image`, a Go map) is modelled as an
association list in arbitrary insertion order with distinct keys;
`stillcutTmpl` is the template captured by the `stillcut:` regex. -/
def getOzPageImgLinks (stillcutTmpl : Str) (assets : List (Str × Str)) : List Str :=
  (sortStrings (assets.map Prod.fst)).map
    (fun k => replaceAllFilename (lookupAsset assets k) stillcutTmpl)

/-- Outcome of fetching one image link and appending it to the comic
file.  `transportErr` models a failure inside `fetchImage`
(src/unnamed/part_000 lines 376-404), where every error path calls
`os.Exit(1)`.  `decodeErr` models `comicFile.addImage` returning an
error (bad image data), which `saveBatch` turns into a `panic`. -/
inductive LinkFx
  | transportErr
  | decodeErr (msg : Str)
  | okFx
deriving DecidableEq

/-- Observable side effects of one batch job, used to state the
claims about what a batch does and does not touch. -/
inductive FxEvent
  | fetch (link : Str)
  | addPage (link : Str)
  | writeFile (file : Str)
deriving DecidableEq

/-- How the image loop of `saveBatch` ends: normally, with a panic
(recovered at the goroutine boundary), or with `os.Exit(1)`. -/
inductive LoopOut
  | done
  | panicked (msg : Str)
  | exitNow
deriving DecidableEq

/-- The substring tested by `strings.Contains(imgLink, ".gif")`. -/
def gifPat : Str := (".gif").data

/-- The image loop of `saveBatch` (src/unnamed/part_000 lines 531-552):
gif links are skipped with a warning before any fetch; otherwise the
image is fetched (`os.Exit(1)` on transport error, ending the whole
process) and appended (`panic` on `addImage` error). -/
def saveLoop (linkFx : Str → LinkFx) : List Str → List FxEvent × LoopOut
  | [] => ([], .done)
  | l :: ls =>
    if strContains l gifPat then saveLoop linkFx ls
    else
      match linkFx l with
      | .transportErr => ([.fetch l], .exitNow)
      | .decodeErr m => ([.fetch l], .panicked m)
      | .okFx =>
        let r := saveLoop linkFx ls
        (.fetch l :: .addPage l :: r.1, r.2)

/-- Result of one `saveBatch` goroutine.  `recovered` is a panic caught
by the deferred `recover` (src/unnamed/part_000 lines 518-522);
`exited` is `os.Exit(1)` reached inside `fetchImage`, which terminates
the entire process and bypasses every deferred recover. -/
inductive BatchResult
  | saved (file : Str)
  | skippedExisting (file : Str)
  | recovered (msg : Str)
  | exited
deriving DecidableEq

/-- The output path `fmt.Sprintf("webtoon/%s/%s/%s.%s", title, lang,
episodeBatch.title, opts.format)` (src/unnamed/part_000 line 525). -/
def outFilePath (title lang btitle format : Str) : Str :=
  ("webtoon/").data ++ title ++ [ '/' ] ++ lang ++ [ '/' ] ++ btitle ++ [ '.' ] ++ format

/-- Model of `saveBatch` (src/unnamed/part_000 lines 516-560) as a function of
its own batch and of the per-link collaborator behaviours.  `statOk f`
models `os.Stat f` succeeding (the file exists); the Go guard
`!*FileVerify || fileExist != nil` skips the batch exactly when
FileVerify is set and the file exists.  `saveFx f` is the error of
`comicFile.save f` (`none` = success), which on failure also panics. -/
def saveBatch (fileVerify : Bool) (statOk : Str → Bool) (linkFx : Str → LinkFx)
    (saveFx : Str → Option Str) (title lang format : Str) (b : EpisodeBatch) :
    List FxEvent × BatchResult :=
  let outFile := outFilePath title lang b.title format
  if !fileVerify || !statOk outFile then
    match saveLoop linkFx b.imgLinks with
    | (evs, .done) =>
      match saveFx outFile with
      | some m => (evs, .recovered m)
      | none => (evs ++ [.writeFile outFile], .saved outFile)
    | (evs, .panicked m) => (evs, .recovered m)
    | (evs, .exitNow) => (evs, .exited)
  else ([], .skippedExisting outFile)

/-- The batch fan-out of `GetWebtoon` (src/unnamed/part_000
lines 593-602): every batch is dispatched to the goroutine pool and
`pool.Wait` blocks until all are done.  The model runs the jobs under
one admissible schedule of the pool, in list order; since batch jobs
share no state, each job's result is a function of its own batch only.
`os.Exit(1)` inside a job kills the process, so jobs scheduled after
it produce no result at all. -/
def runBatches (fileVerify : Bool) (statOk : Str → Bool) (linkFx : Str → LinkFx)
    (saveFx : Str → Option Str) (title lang format : Str) :
    List EpisodeBatch → List (List FxEvent × BatchResult)
  | [] => []
  | b :: bs =>
    let r := saveBatch fileVerify statOk linkFx saveFx title lang format b
    if r.2 = BatchResult.exited then [r]
    else r :: runBatches fileVerify statOk linkFx saveFx title lang format bs

/-- Model of `GetWebtoon` after batch planning (src/unnamed/part_000
lines 580-618): run all batches, wait, then unconditionally upsert the
progress row with `last_chapter = episodeBatches[len-1].maxEp`.  The
second component is the upserted `last_chapter` value; it is `none`
when the process died first: on an empty batch list Go panics indexing
`episodeBatches[len(episodeBatches)-1]` before the pool starts, and an
`os.Exit(1)` in any batch kills the process before `db.Exec`. -/
def getWebtoonRun (fileVerify : Bool) (statOk : Str → Bool) (linkFx : Str → LinkFx)
    (saveFx : Str → Option Str) (title lang format : Str)
    (batches : List EpisodeBatch) :
    List (List FxEvent × BatchResult) × Option Nat :=
  if batches.isEmpty then ([], none)
  else
    let rs := runBatches fileVerify statOk linkFx saveFx title lang format batches
    if rs.any (fun r => decide (r.2 = BatchResult.exited)) then (rs, none)
    else (rs, some (batches.getLastD default).maxEp)

/-- The resume rule of `GetWebtoons` (src/unnamed/part_000
lines 664-671): the next database-driven run sets
`opts.minEp = last_chapter` (and leaves `maxEp` at its default
`math.MaxInt`), so the range filter of `getEpisodeBatches` keeps an
episode number iff `last_chapter ≤ n`. -/
def resumeIncluded (lastChapter epNum : Nat) : Bool :=
  decide (lastChapter ≤ epNum)

/-- One position of the regex scan in `episodeNo`: the url suffix at
index `i` starts with the literal `episode_no=` followed by at least
one digit (exactly the positions where `episode_no=([0-9]+)` can
match). -/
def epMatchAt (url : Str) (i : Nat) : Bool :=
  match dropPat episodeNoPat (url.drop i) with
  | none => false
  | some [] => false
  | some (d :: _) => isDigitCh d

/-- Concatenation of the page contents `P p, ..., P (K - 1)`: the
entries a crawl collects from the complete pages before its stopping
page. -/
def crawlSeg (P : Nat → List α) (p K : Nat) : List α :=
  ((List.range (K - p)).map (fun i => P (p + i))).flatten

/-- Concrete catalog entry used by closed-instance theorems: the url
carries `episode_no=` followed by the single digit `d`. -/
def sampleEp (d : Char) : EpisodeInfo :=
  { url := ("https://webtoons.com/en/g/t/list?episode_no=").data ++ [d]
    title := [d] }

/-- A concrete listing url (no `/viewer` component). -/
def sampleListURL : Str := ("https://webtoons.com/en/g/t/list?title_no=9").data

/-- Concrete five-episode catalog used by closed-instance theorems. -/
def sampleCat : List EpisodeInfo :=
  [sampleEp '1', sampleEp '2', sampleEp '3', sampleEp '4', sampleEp '5']

/-- Concrete paginated source: every page serves the same two entries,
so page 2 re-serves page 1 and the crawl stops there. -/
def samplePages : Nat → Option (List EpisodeInfo) :=
  fun _ => some [sampleEp '1', sampleEp '2']

/-- The page-content function matching `samplePages` before the stop. -/
def samplePageContent : Nat → List EpisodeInfo :=
  fun _ => [sampleEp '1', sampleEp '2']

/-- A url shared by two catalog entries that differ in title. -/
def dupURL : Str := ("a?episode_no=7").data

/-- Concrete paginated source where page 2 re-serves page 1's URL under
a different title: page 3 is the first page whose entry repeats an
accumulated `(url, title)` pair. -/
def cexPages : Nat → Option (List EpisodeInfo) :=
  fun p =>
    if p = 2 then some [{ url := dupURL, title := ("y").data }]
    else some [{ url := dupURL, title := ("x").data }]

/-- An image link whose fetch/decode misbehaves in the concrete
executor scenarios. -/
def badLink : Str := ("bad.jpg").data

/-- An image link that downloads and decodes fine. -/
def goodLink : Str := ("good.jpg").data

/-- Collaborator behaviour: fetching `badLink` hits a transport error
(so `fetchImage` calls `os.Exit(1)`); everything else succeeds. -/
def cexLinkFx : Str → LinkFx :=
  fun l => if l = badLink then .transportErr else .okFx

/-- Collaborator behaviour: `badLink` downloads but fails to decode in
`addImage` (so `saveBatch` panics and the deferred recover fires). -/
def decodeLinkFx : Str → LinkFx :=
  fun l => if l = badLink then .decodeErr (("bad image").data) else .okFx

/-- Concrete batch whose sole image link is `badLink`. -/
def cexBatch1 : EpisodeBatch :=
  { imgLinks := [badLink], title := ("b1").data, minEp := 1, maxEp := 1 }

/-- Concrete batch whose sole image link is `goodLink`. -/
def cexBatch2 : EpisodeBatch :=
  { imgLinks := [goodLink], title := ("b2").data, minEp := 2, maxEp := 2 }

/-- Concrete healthy batch covering episodes 1-2. -/
def g1Batch : EpisodeBatch :=
  { imgLinks := [goodLink], title := ("g1").data, minEp := 1, maxEp := 2 }

/-- Concrete failing batch covering episode 3 (its image decodes
badly, so the batch panics and is recovered). -/
def g2Batch : EpisodeBatch :=
  { imgLinks := [badLink], title := ("g2").data, minEp := 3, maxEp := 3 }

/-- A two-entry manifest in one insertion order. -/
def sampleAssets1 : List (Str × Str) :=
  [((("b").data), (("f2").data)), ((("a").data), (("f1").data))]

/-- The same manifest entries in the opposite insertion order. -/
def sampleAssets2 : List (Str × Str) :=
  [((("a").data), (("f1").data)), ((("b").data), (("f2").data))]

/-- A concrete stillcut path template containing the placeholder. -/
def sampleTmpl : Str := ("/img/\x7b=filename\x7d?q70").data

theorem foldl_title_append (ts : List Str) (init : Str) :
    ts.foldl (fun acc t => acc ++ t ++ [ '_' ]) init
      = init ++ (ts.map (fun t => t ++ [ '_' ])).flatten := by
  induction ts generalizing init with
  | nil => simp
  | cons t ts ih =>
    rw [List.foldl_cons, ih]
    simp [List.append_assoc]

theorem flatten_title_dropLast (t : Str) (ts : List Str) :
    (((t :: ts).map (fun s => s ++ [ '_' ])).flatten).dropLast
      = List.intercalate [ '_' ] (t :: ts) := by
  induction ts generalizing t with
  | nil =>
    simp [List.intercalate, List.intersperse]
  | cons t2 ts2 ih =>
    have hne : (((t2 :: ts2).map (fun s => s ++ [ '_' ])).flatten) ≠ [] := by
      simp
    rw [List.map_cons, List.flatten_cons, List.dropLast_append_of_ne_nil _ hne, ih t2]
    simp [List.intercalate, List.intersperse, List.append_assoc]

/-- Claim C9: for every non-empty list of episode titles, `createTitle`
equals the titles joined in order with separator "_" and no trailing
separator. -/
theorem claim_c9_title_join (ts : List Str) (h : ts ≠ []) :
    createTitle ts = List.intercalate [ '_' ] ts := by
  cases ts with
  | nil => cases h rfl
  | cons t ts2 =>
    rw [createTitle, foldl_title_append, List.nil_append]
    exact flatten_title_dropLast t ts2

/-- Closed instance of claim C9 at the spec's example `["A","B","C"]`. -/
theorem claim_c9_witness :
    createTitle [("A").data, ("B").data, ("C").data]
        = List.intercalate [ '_' ] [("A").data, ("B").data, ("C").data]
      ∧ createTitle [("A").data, ("B").data, ("C").data] = ("A_B_C").data :=
  ⟨claim_c9_title_join [("A").data, ("B").data, ("C").data] (by decide), by decide⟩

/-- Claim C5: when no catalog episode's extracted number lies in the
inclusive range, the planner returns the "No episode found" error, so
no batches exist and the download never starts (the caller
`GetWebtoon` panics on the error before dispatching any batch). -/
theorem claim_c5_empty_range_error (imgsOf : Str → List Str)
    (catalog : List EpisodeInfo) (url : Str) (minEp maxEp epsPerBatch : Nat)
    (hlist : strContains url viewerPat = false)
    (hnone : ∀ e ∈ catalog, ¬ (minEp ≤ episodeNo e.url ∧ episodeNo e.url ≤ maxEp)) :
    getEpisodeBatches imgsOf catalog url minEp maxEp epsPerBatch
      = .error noEpisodeMsg := by
  have hf : filterRange catalog minEp maxEp = [] := by
    rw [filterRange, List.filter_eq_nil_iff]
    intro e he
    have := hnone e he
    simp only [Bool.and_eq_true, decide_eq_true_eq]
    omega
  simp [getEpisodeBatches, hlist, hf]

/-- Closed instance of claim C5: catalog has only episode 5, requested
range is [1,2]. -/
theorem claim_c5_witness :
    getEpisodeBatches (fun _ => []) [sampleEp '5'] sampleListURL 1 2 4
      = .error noEpisodeMsg :=
  claim_c5_empty_range_error (fun _ => []) [sampleEp '5'] sampleListURL 1 2 4
    (by decide) (by decide)

/-- Claim C6: with the skip-existing flag set and the target file
present, `saveBatch` performs no effect at all (no image fetch, no
builder append, no file write — the empty event list) and reports the
batch skipped, leaving the existing file untouched. -/
theorem claim_c6_skip_existing (statOk : Str → Bool) (linkFx : Str → LinkFx)
    (saveFx : Str → Option Str) (title lang format : Str) (b : EpisodeBatch)
    (hexists : statOk (outFilePath title lang b.title format) = true) :
    saveBatch true statOk linkFx saveFx title lang format b
      = ([], BatchResult.skippedExisting (outFilePath title lang b.title format)) := by
  simp [saveBatch, hexists]

/-- Closed instance of claim C6. -/
theorem claim_c6_witness :
    saveBatch true (fun _ => true) (fun _ => LinkFx.okFx) (fun _ => none)
        (("t").data) (("en").data) (("pdf").data)
        { imgLinks := [("img1").data], title := ("e1").data, minEp := 1, maxEp := 1 }
      = ([], BatchResult.skippedExisting
          (outFilePath (("t").data) (("en").data) (("e1").data) (("pdf").data))) :=
  claim_c6_skip_existing (fun _ => true) (fun _ => LinkFx.okFx) (fun _ => none)
    (("t").data) (("en").data) (("pdf").data)
    { imgLinks := [("img1").data], title := ("e1").data, minEp := 1, maxEp := 1 }
    (by decide)

theorem planChunks_nil_any (eps : Nat) : planChunks eps ([] : List α) = [] := by
  cases eps <;> simp [planChunks]

theorem planChunks_cons (e : Nat) (x : α) (xs : List α) :
    planChunks (e + 1) (x :: xs)
      = (x :: xs).take (e + 1) :: planChunks (e + 1) (xs.drop e) := by
  rw [planChunks]

theorem planChunks_eq_nil_iff (e : Nat) (l : List α) :
    planChunks (e + 1) l = [] ↔ l = [] := by
  cases l with
  | nil => simp [planChunks_nil_any]
  | cons x xs => simp [planChunks_cons]

theorem planChunks_flatten_aux (e : Nat) :
    ∀ (n : Nat) (l : List α), l.length ≤ n → (planChunks (e + 1) l).flatten = l := by
  intro n
  induction n with
  | zero =>
    intro l h
    have hl : l = [] := List.length_eq_zero.mp (Nat.le_zero.mp h)
    subst hl
    simp [planChunks_nil_any]
  | succ n ih =>
    intro l h
    cases l with
    | nil => simp [planChunks_nil_any]
    | cons x xs =>
      rw [planChunks_cons, List.flatten_cons,
        ih (xs.drop e) (by simp only [List.length_drop]; simp at h; omega)]
      have hd : xs.drop e = (x :: xs).drop (e + 1) := rfl
      rw [hd, List.take_append_drop]

theorem planChunks_flatten (e : Nat) (l : List α) :
    (planChunks (e + 1) l).flatten = l :=
  planChunks_flatten_aux e l.length l (Nat.le_refl _)

theorem planChunks_length_aux (e : Nat) :
    ∀ (n : Nat) (l : List α), l.length ≤ n →
      (planChunks (e + 1) l).length = (l.length + e) / (e + 1) := by
  intro n
  induction n with
  | zero =>
    intro l h
    have hl : l = [] := List.length_eq_zero.mp (Nat.le_zero.mp h)
    subst hl
    simp [planChunks_nil_any, Nat.div_eq_of_lt (Nat.lt_succ_self e)]
  | succ n ih =>
    intro l h
    cases l with
    | nil => simp [planChunks_nil_any, Nat.div_eq_of_lt (Nat.lt_succ_self e)]
    | cons x xs =>
      rw [planChunks_cons, List.length_cons,
        ih (xs.drop e) (by simp only [List.length_drop]; simp at h; omega)]
      simp only [List.length_drop, List.length_cons]
      by_cases hc : e ≤ xs.length
      · have h1 : xs.length - e + e = xs.length := by omega
        have h2 : xs.length + 1 + e = xs.length + (e + 1) := by omega
        rw [h1, h2, Nat.add_div_right _ (Nat.succ_pos e)]
      · have h1 : xs.length - e + e = e := by omega
        rw [h1, Nat.div_eq_of_lt (Nat.lt_succ_self e)]
        have h2 : (xs.length + 1 + e) / (e + 1) = 1 := by
          apply Nat.div_eq_of_lt_le
          · omega
          · omega
        omega

theorem planChunks_length (e : Nat) (l : List α) :
    (planChunks (e + 1) l).length = (l.length + e) / (e + 1) :=
  planChunks_length_aux e l.length l (Nat.le_refl _)

theorem planChunks_chunk_size_aux (e : Nat) :
    ∀ (n : Nat) (l : List α), l.length ≤ n →
      ∀ c ∈ planChunks (e + 1) l, c ≠ [] ∧ c.length ≤ e + 1 := by
  intro n
  induction n with
  | zero =>
    intro l h
    have hl : l = [] := List.length_eq_zero.mp (Nat.le_zero.mp h)
    subst hl
    simp [planChunks_nil_any]
  | succ n ih =>
    intro l h c hc
    cases l with
    | nil => simp [planChunks_nil_any] at hc
    | cons x xs =>
      rw [planChunks_cons] at hc
      rcases List.mem_cons.mp hc with hceq | hcmem
      · subst hceq
        constructor
        · simp [List.take_cons]
        · simp
      · exact ih (xs.drop e) (by simp only [List.length_drop]; simp at h; omega) c hcmem

theorem planChunks_chunk_size (e : Nat) (l : List α) :
    ∀ c ∈ planChunks (e + 1) l, c ≠ [] ∧ c.length ≤ e + 1 :=
  planChunks_chunk_size_aux e l.length l (Nat.le_refl _)

theorem planChunks_dropLast_aux (e : Nat) :
    ∀ (n : Nat) (l : List α), l.length ≤ n →
      ∀ c ∈ (planChunks (e + 1) l).dropLast, c.length = e + 1 := by
  intro n
  induction n with
  | zero =>
    intro l h
    have hl : l = [] := List.length_eq_zero.mp (Nat.le_zero.mp h)
    subst hl
    simp [planChunks_nil_any]
  | succ n ih =>
    intro l h c hc
    cases l with
    | nil => simp [planChunks_nil_any] at hc
    | cons x xs =>
      rw [planChunks_cons] at hc
      by_cases hr : xs.drop e = []
      · rw [hr, planChunks_nil_any] at hc
        simp at hc
      · have hrest : planChunks (e + 1) (xs.drop e) ≠ [] := by
          rw [Ne, planChunks_eq_nil_iff]
          exact hr
        rw [List.dropLast_cons_of_ne_nil hrest] at hc
        rcases List.mem_cons.mp hc with hceq | hcmem
        · subst hceq
          have he : e < xs.length := by
            by_contra hcon
            exact hr (List.drop_eq_nil_of_le (by omega))
          simp only [List.length_take, List.length_cons]
          omega
        · exact ih (xs.drop e) (by simp only [List.length_drop]; simp at h; omega) c hcmem

theorem planChunks_dropLast (e : Nat) (l : List α) :
    ∀ c ∈ (planChunks (e + 1) l).dropLast, c.length = e + 1 :=
  planChunks_dropLast_aux e l.length l (Nat.le_refl _)

theorem planChunks_last_aux (e : Nat) :
    ∀ (n : Nat) (l : List α), l.length ≤ n → l ≠ [] →
      ((planChunks (e + 1) l).getLastD []).length
        = l.length - (e + 1) * ((planChunks (e + 1) l).length - 1) := by
  intro n
  induction n with
  | zero =>
    intro l h hne
    have hl : l = [] := List.length_eq_zero.mp (Nat.le_zero.mp h)
    exact absurd hl hne
  | succ n ih =>
    intro l h hne
    cases l with
    | nil => exact absurd rfl hne
    | cons x xs =>
      rw [planChunks_cons]
      by_cases hr : xs.drop e = []
      · rw [hr, planChunks_nil_any]
        have hle : xs.length ≤ e := List.drop_eq_nil_iff.mp hr
        simp only [List.getLastD_cons, List.getLastD_nil, List.length_take,
          List.length_cons, List.length_nil, Nat.add_sub_cancel, Nat.mul_zero,
          Nat.sub_zero]
        omega
      · have he : e < xs.length := by
          have := List.drop_eq_nil_iff.not.mp hr
          omega
        have ihr := ih (xs.drop e) (by simp only [List.length_drop]; simp at h; omega) hr
        cases hrc : planChunks (e + 1) (xs.drop e) with
        | nil => exact absurd (planChunks_eq_nil_iff e (xs.drop e) |>.mp hrc) hr
        | cons r rs =>
          rw [hrc] at ihr
          simp only [List.getLastD_cons, List.length_cons] at ihr ⊢
          rw [ihr]
          simp only [List.length_drop]
          have hm : (e + 1) * (rs.length + 1 + 1 - 1) = (e + 1) * rs.length + (e + 1) := by
            have h0 : rs.length + 1 + 1 - 1 = rs.length + 1 := by omega
            rw [h0, Nat.mul_succ]
          rw [hm]
          have hm2 : (e + 1) * (rs.length + 1 - 1) = (e + 1) * rs.length := by
            have h0 : rs.length + 1 - 1 = rs.length := by omega
            rw [h0]
          rw [hm2]
          generalize (e + 1) * rs.length = m
          omega

theorem planChunks_last (e : Nat) (l : List α) (hne : l ≠ []) :
    ((planChunks (e + 1) l).getLastD []).length
      = l.length - (e + 1) * ((planChunks (e + 1) l).length - 1) :=
  planChunks_last_aux e l.length l (Nat.le_refl _) hne

/-- Claim C2: on a listing URL with a non-empty filtered episode list of
length L and `episodesPerFile = e + 1 ≥ 1`, the planner returns one
batch per chunk of `planChunks`; there are exactly
`ceil (L / (e+1)) = (L + e) / (e+1)` chunks, their concatenation is the
filtered list itself (contiguous cover, original order, no gaps, no
overlaps), every chunk before the last has exactly `e + 1` episodes,
every chunk is non-empty of size at most `e + 1`, the last chunk holds
the remainder `L - (e+1) * (numBatches - 1)`, and each batch's
`minEp` / `maxEp` are the episode numbers of the first / last episode
of its chunk. -/
theorem claim_c2_batch_partition (imgsOf : Str → List Str)
    (catalog : List EpisodeInfo) (url : Str) (minEp maxEp e : Nat)
    (hlist : strContains url viewerPat = false)
    (hne : filterRange catalog minEp maxEp ≠ []) :
    getEpisodeBatches imgsOf catalog url minEp maxEp (e + 1)
        = .ok ((planChunks (e + 1) (filterRange catalog minEp maxEp)).map (mkBatch imgsOf))
      ∧ (planChunks (e + 1) (filterRange catalog minEp maxEp)).length
          = ((filterRange catalog minEp maxEp).length + e) / (e + 1)
      ∧ (planChunks (e + 1) (filterRange catalog minEp maxEp)).flatten
          = filterRange catalog minEp maxEp
      ∧ (∀ c ∈ (planChunks (e + 1) (filterRange catalog minEp maxEp)).dropLast,
          c.length = e + 1)
      ∧ (∀ c ∈ planChunks (e + 1) (filterRange catalog minEp maxEp),
          c ≠ [] ∧ c.length ≤ e + 1)
      ∧ ((planChunks (e + 1) (filterRange catalog minEp maxEp)).getLastD []).length
          = (filterRange catalog minEp maxEp).length
            - (e + 1) * ((planChunks (e + 1) (filterRange catalog minEp maxEp)).length - 1)
      ∧ (∀ c ∈ planChunks (e + 1) (filterRange catalog minEp maxEp),
          (mkBatch imgsOf c).minEp = episodeNo (c.headD default).url
            ∧ (mkBatch imgsOf c).maxEp = episodeNo (c.getLastD default).url) := by
  refine ⟨?_, planChunks_length e _, planChunks_flatten e _,
    planChunks_dropLast e _, planChunks_chunk_size e _,
    planChunks_last e _ hne, fun c _ => ⟨rfl, rfl⟩⟩
  have hemp : (filterRange catalog minEp maxEp).isEmpty = false := by
    cases hfr : filterRange catalog minEp maxEp with
    | nil => exact absurd hfr hne
    | cons a l => rfl
  simp [getEpisodeBatches, hlist, hemp]

/-- Closed instance of claim C2: five episodes, two per file. -/
theorem claim_c2_witness :
    getEpisodeBatches (fun _ => []) sampleCat sampleListURL 0 9 2
      = .ok ((planChunks 2 (filterRange sampleCat 0 9)).map (mkBatch (fun _ => []))) :=
  (claim_c2_batch_partition (fun _ => []) sampleCat sampleListURL 0 9 1
    (by decide) (by decide)).1

theorem dropPat_eq_some (p : Str) : ∀ (s r : Str), dropPat p s = some r ↔ s = p ++ r := by
  induction p with
  | nil =>
    intro s r
    simp [dropPat]
  | cons a p ih =>
    intro s r
    cases s with
    | nil => simp [dropPat]
    | cons c cs =>
      simp only [dropPat]
      by_cases hc : c = a
      · subst hc
        simp [ih]
      · simp [hc]

theorem takeWhile_digits_append (ds suf : Str)
    (hdig : ∀ c ∈ ds, isDigitCh c = true)
    (hsuf : suf.takeWhile isDigitCh = []) :
    (ds ++ suf).takeWhile isDigitCh = ds := by
  induction ds with
  | nil => simpa using hsuf
  | cons c cs ih =>
    have hc : isDigitCh c = true := hdig c (List.mem_cons_self c cs)
    simp [List.takeWhile_cons, hc,
      ih (fun x hx => hdig x (List.mem_cons_of_mem c hx))]

theorem epMatchAt_past_end (url : Str) (i : Nat) (h : url.length ≤ i) :
    epMatchAt url i = false := by
  have hd : url.drop i = [] := List.drop_eq_nil_iff.mpr h
  rw [epMatchAt, hd]
  decide

theorem epMatchAt_shift (c : Char) (cs : Str) (i : Nat) :
    epMatchAt (c :: cs) (i + 1) = epMatchAt cs i := rfl

theorem findEpisodeDigits_eq_match (s : Str) (hs : s ≠ []) :
    findEpisodeDigits s
      = match dropPat episodeNoPat s with
        | some rest =>
          if (rest.takeWhile isDigitCh).isEmpty then findEpisodeDigits s.tail
          else some (rest.takeWhile isDigitCh)
        | none => findEpisodeDigits s.tail := by
  cases s with
  | nil => cases hs rfl
  | cons c cs => rfl

theorem findEpisodeDigits_match_some (s rest : Str) (hs : s ≠ [])
    (hd : dropPat episodeNoPat s = some rest) :
    findEpisodeDigits s
      = if (rest.takeWhile isDigitCh).isEmpty then findEpisodeDigits s.tail
        else some (rest.takeWhile isDigitCh) := by
  rw [findEpisodeDigits_eq_match s hs, hd]

theorem findEpisodeDigits_match_none (s : Str) (hs : s ≠ [])
    (hd : dropPat episodeNoPat s = none) :
    findEpisodeDigits s = findEpisodeDigits s.tail := by
  rw [findEpisodeDigits_eq_match s hs, hd]

theorem findEpisodeDigits_eq_none (url : Str)
    (h : ∀ i, epMatchAt url i = false) : findEpisodeDigits url = none := by
  induction url with
  | nil => rfl
  | cons c cs ih =>
    have h0 := h 0
    have hrec : findEpisodeDigits cs = none :=
      ih (fun i => by rw [← epMatchAt_shift c cs i]; exact h (i + 1))
    rw [findEpisodeDigits_eq_match (c :: cs) (List.cons_ne_nil c cs)]
    rw [epMatchAt] at h0
    simp only [List.drop_zero] at h0
    cases hd : dropPat episodeNoPat (c :: cs) with
    | none => exact hrec
    | some rest =>
      rw [hd] at h0
      cases rest with
      | nil => simpa using hrec
      | cons d r2 =>
        simp only at h0
        simp [List.takeWhile_cons, h0, hrec]

theorem findEpisodeDigits_found (pre ds suf : Str)
    (hds : ds ≠ []) (hdig : ∀ c ∈ ds, isDigitCh c = true)
    (hsuf : suf.takeWhile isDigitCh = [])
    (hfirst : ∀ i, i < pre.length →
      epMatchAt (pre ++ (episodeNoPat ++ (ds ++ suf))) i = false) :
    findEpisodeDigits (pre ++ (episodeNoPat ++ (ds ++ suf))) = some ds := by
  induction pre with
  | nil =>
    rw [List.nil_append]
    have hd : dropPat episodeNoPat (episodeNoPat ++ (ds ++ suf)) = some (ds ++ suf) :=
      (dropPat_eq_some episodeNoPat _ _).mpr rfl
    have hne : episodeNoPat ++ (ds ++ suf) ≠ [] := by
      intro hcon
      have hlen := congrArg List.length hcon
      simp [episodeNoPat] at hlen
    rw [findEpisodeDigits_match_some _ _ hne hd]
    rw [takeWhile_digits_append ds suf hdig hsuf]
    have hemp : ds.isEmpty = false := by
      cases ds with
      | nil => exact absurd rfl hds
      | cons c cs => rfl
    rw [hemp]
    simp
  | cons a pre2 ih =>
    have h0 := hfirst 0 (by simp)
    have hrec : findEpisodeDigits (pre2 ++ (episodeNoPat ++ (ds ++ suf))) = some ds :=
      ih (fun i hi => by
        rw [← epMatchAt_shift a (pre2 ++ (episodeNoPat ++ (ds ++ suf))) i]
        exact hfirst (i + 1) (by simp only [List.length_cons]; omega))
    rw [List.cons_append]
    rw [epMatchAt] at h0
    simp only [List.drop_zero, List.cons_append] at h0
    cases hd : dropPat episodeNoPat (a :: (pre2 ++ (episodeNoPat ++ (ds ++ suf)))) with
    | none =>
      rw [findEpisodeDigits_match_none _ (List.cons_ne_nil _ _) hd]
      exact hrec
    | some rest =>
      rw [findEpisodeDigits_match_some _ _ (List.cons_ne_nil _ _) hd]
      rw [hd] at h0
      cases rest with
      | nil => simpa using hrec
      | cons d r2 =>
        simp only at h0
        simp [List.takeWhile_cons, h0, hrec]

/-- Claim C4, amended: `episodeNo` never fails; on a URL whose leftmost
`episode_no=<digits N>` match is at the stated position it returns `N`
when `N` fits Go's 64-bit `int` and `0` when the digits overflow it;
and on a URL with no match position at all it returns `0`. -/
theorem claim_c4_extractor :
    (∀ pre ds suf : Str, ds ≠ [] → (∀ c ∈ ds, isDigitCh c = true) →
      suf.takeWhile isDigitCh = [] →
      (∀ i, i < pre.length →
        epMatchAt (pre ++ (episodeNoPat ++ (ds ++ suf))) i = false) →
      episodeNo (pre ++ (episodeNoPat ++ (ds ++ suf)))
        = if digitsVal ds ≤ goMaxInt then digitsVal ds else 0)
    ∧ (∀ url : Str, (∀ i, i < url.length → epMatchAt url i = false) →
        episodeNo url = 0) := by
  constructor
  · intro pre ds suf hds hdig hsuf hfirst
    have hf := findEpisodeDigits_found pre ds suf hds hdig hsuf hfirst
    have hemp : ds.isEmpty = false := by
      cases ds with
      | nil => exact absurd rfl hds
      | cons c cs => rfl
    simp only [episodeNo, hf, atoiDigits, hemp, Bool.false_eq_true, if_false]
    by_cases hbig : goMaxInt < digitsVal ds
    · simp [hbig, Nat.not_le.mpr hbig]
    · simp [hbig, Nat.not_lt.mp hbig]
  · intro url h
    have hall : ∀ i, epMatchAt url i = false := by
      intro i
      by_cases hi : i < url.length
      · exact h i hi
      · exact epMatchAt_past_end url i (by omega)
    rw [episodeNo, findEpisodeDigits_eq_none url hall]

/-- Claim C4 as stated is false on the code: this URL contains
`episode_no=<digits N>` with `N = 9999999999999999999`, which exceeds
Go's `int` range, so `strconv.Atoi` errors and `episodeNo` returns 0
instead of `N`. -/
theorem claim_c4_cex :
    episodeNo (("x?episode_no=9999999999999999999").data) = 0
      ∧ digitsVal (("9999999999999999999").data) = 9999999999999999999
      ∧ (9999999999999999999 : Nat) ≠ 0 := by
  refine ⟨by decide, by decide, by decide⟩

/-- Closed instance of claim C4 (both amended branches) at concrete
URLs. -/
theorem claim_c4_witness :
    (episodeNo ((("x?").data) ++ (episodeNoPat ++ ((("123").data) ++ (("&a=b").data))))
        = if digitsVal (("123").data) ≤ goMaxInt then digitsVal (("123").data) else 0)
      ∧ episodeNo (("https://webtoons.com/en/g/t/list?title_no=9").data) = 0 :=
  ⟨claim_c4_extractor.1 (("x?").data) (("123").data) (("&a=b").data)
      (by decide) (by decide) (by decide) (by decide),
    claim_c4_extractor.2 (("https://webtoons.com/en/g/t/list?title_no=9").data)
      (by decide)⟩

theorem lookupAsset_eq_of_mem (l : List (Str × Str)) (k v : Str)
    (hnd : (l.map Prod.fst).Nodup) (hmem : (k, v) ∈ l) : lookupAsset l k = v := by
  induction l with
  | nil => cases hmem
  | cons p rest ih =>
    obtain ⟨k', v'⟩ := p
    rw [List.map_cons] at hnd
    rcases List.mem_cons.mp hmem with heq | hmem2
    · rw [lookupAsset]
      have hk : k' = k := by
        have := Prod.mk.injEq .. ▸ heq
        simp at this
        exact this.1.symm
      simp [hk]
      have := Prod.mk.injEq .. ▸ heq
      simp at this
      exact this.2.symm
    · rw [lookupAsset]
      have hk : ¬ k' = k := by
        intro hcon
        subst hcon
        have hkin : k' ∈ rest.map Prod.fst :=
          List.mem_map.mpr ⟨(k', v), hmem2, rfl⟩
        exact (List.nodup_cons.mp hnd).1 hkin
      simp only [hk, if_false]
      exact ih (List.nodup_cons.mp hnd).2 hmem2

theorem lookupAsset_not_mem (l : List (Str × Str)) (k : Str)
    (h : k ∉ l.map Prod.fst) : lookupAsset l k = [] := by
  induction l with
  | nil => rfl
  | cons p rest ih =>
    obtain ⟨k', v'⟩ := p
    rw [List.map_cons] at h
    rw [lookupAsset]
    have hk : ¬ k' = k := fun hcon => h (hcon ▸ List.mem_cons_self k' _)
    simp only [hk, if_false]
    exact ih (fun hcon => h (List.mem_cons_of_mem k' hcon))

theorem lookupAsset_perm (a b : List (Str × Str)) (hperm : a.Perm b)
    (hnd : (a.map Prod.fst).Nodup) (k : Str) :
    lookupAsset a k = lookupAsset b k := by
  by_cases hk : k ∈ a.map Prod.fst
  · obtain ⟨⟨k0, v⟩, hpm, hk0⟩ := List.mem_map.mp hk
    have hk0e : k0 = k := hk0
    have hpm2 : (k, v) ∈ a := hk0e ▸ hpm
    rw [lookupAsset_eq_of_mem a k v hnd hpm2,
      lookupAsset_eq_of_mem b k v ((hperm.map Prod.fst).nodup_iff.mp hnd)
        (hperm.mem_iff.mp hpm2)]
  · rw [lookupAsset_not_mem a k hk,
      lookupAsset_not_mem b k (fun hcon => hk ((hperm.map Prod.fst).mem_iff.mpr hcon))]

theorem sortStrings_eq_of_perm (ka kb : List Str) (h : ka.Perm kb) :
    sortStrings ka = sortStrings kb := by
  apply List.eq_of_perm_of_sorted (r := fun x y : Str => x ≤ y)
  · exact (List.perm_insertionSort _ ka).trans (h.trans (List.perm_insertionSort _ kb).symm)
  · exact List.sorted_insertionSort _ ka
  · exact List.sorted_insertionSort _ kb

/-- Claim C7: the fallback resolver yields one URL per manifest key, in
the order of the lexicographically sorted keys, the i-th URL being the
template with the placeholder replaced by the filename of the i-th
smallest key; and the output is independent of the manifest's
insertion order (any permutation of the association list produces the
same URL sequence). -/
theorem claim_c7_manifest_order (tmpl : Str) (a b : List (Str × Str))
    (hperm : a.Perm b) (hnd : (a.map Prod.fst).Nodup) :
    getOzPageImgLinks tmpl a = getOzPageImgLinks tmpl b
      ∧ (getOzPageImgLinks tmpl a).length = a.length
      ∧ getOzPageImgLinks tmpl a
          = (sortStrings (a.map Prod.fst)).map
              (fun k => replaceAllFilename (lookupAsset a k) tmpl)
      ∧ List.Sorted (fun x y : Str => x ≤ y) (sortStrings (a.map Prod.fst))
      ∧ (sortStrings (a.map Prod.fst)).Perm (a.map Prod.fst) := by
  refine ⟨?_, ?_, rfl, List.sorted_insertionSort _ _, List.perm_insertionSort _ _⟩
  · rw [getOzPageImgLinks, getOzPageImgLinks,
      ← sortStrings_eq_of_perm _ _ (hperm.map Prod.fst)]
    apply List.map_congr_left
    intro k _
    rw [lookupAsset_perm a b hperm hnd k]
  · have hlen : (sortStrings (a.map Prod.fst)).length = (a.map Prod.fst).length :=
      (List.perm_insertionSort _ _).length_eq
    rw [getOzPageImgLinks, List.length_map, hlen, List.length_map]

/-- Closed instance of claim C7: two insertion orders of the same
two-key manifest resolve to the same URL list. -/
theorem claim_c7_witness :
    getOzPageImgLinks sampleTmpl sampleAssets1
      = getOzPageImgLinks sampleTmpl sampleAssets2 :=
  (claim_c7_manifest_order sampleTmpl sampleAssets1 sampleAssets2
    (by decide) (by decide)).1

theorem insertFresh_all_fresh [DecidableEq α] :
    ∀ (es acc : List α), (acc ++ es).Nodup → insertFresh acc es = (acc ++ es, false) := by
  intro es
  induction es with
  | nil =>
    intro acc h
    simp [insertFresh]
  | cons e es ih =>
    intro acc h
    rw [insertFresh]
    have hne : e ∉ acc := by
      intro hcon
      exact (List.nodup_append.mp h).2.2 hcon (List.mem_cons_self e es)
    rw [if_neg hne]
    have h2 : ((acc ++ [e]) ++ es).Nodup := by
      rw [← List.append_cons]
      exact h
    rw [ih (acc ++ [e]) h2, ← List.append_cons]

theorem insertFresh_finds_dup [DecidableEq α] :
    ∀ (F acc : List α) (d : α) (rest : List α), (acc ++ F).Nodup → d ∈ acc ++ F →
      insertFresh acc (F ++ d :: rest) = (acc ++ F, true) := by
  intro F
  induction F with
  | nil =>
    intro acc d rest h hd
    rw [List.append_nil] at hd
    rw [List.nil_append, insertFresh, if_pos hd, List.append_nil]
  | cons f F2 ih =>
    intro acc d rest h hd
    rw [List.cons_append, insertFresh]
    have hf : f ∉ acc := by
      intro hcon
      exact (List.nodup_append.mp h).2.2 hcon (List.mem_cons_self f F2)
    rw [if_neg hf]
    have h2 : ((acc ++ [f]) ++ F2).Nodup := by
      rw [← List.append_cons]
      exact h
    have hd2 : d ∈ (acc ++ [f]) ++ F2 := by
      rw [← List.append_cons]
      exact hd
    rw [ih (acc ++ [f]) d rest h2 hd2, ← List.append_cons]

theorem crawlSeg_empty (P : Nat → List α) (p : Nat) : crawlSeg P p p = [] := by
  simp [crawlSeg]

theorem crawlSeg_step (P : Nat → List α) (p K : Nat) (h : p < K) :
    crawlSeg P p K = P p ++ crawlSeg P (p + 1) K := by
  rw [crawlSeg, crawlSeg]
  have hk : K - p = (K - (p + 1)) + 1 := by omega
  rw [hk, List.range_succ_eq_map, List.map_cons, List.flatten_cons, List.map_map]
  have hmap : List.map ((fun i => P (p + i)) ∘ Nat.succ) (List.range (K - (p + 1)))
      = List.map (fun i => P (p + 1 + i)) (List.range (K - (p + 1))) := by
    apply List.map_congr_left
    intro i _
    simp only [Function.comp_apply]
    congr 1
    omega
  rw [hmap, Nat.add_zero]

theorem crawlLoop_run [DecidableEq α] (pages : Nat → Option (List α))
    (P : Nat → List α) (K : Nat) (F : List α) :
    ∀ (n fuel p : Nat) (acc : List α), K - p = n → p ≤ K → K - p < fuel →
      (∀ j, p ≤ j → j < K → pages j = some (P j)) →
      ((acc ++ crawlSeg P p K) ++ F).Nodup →
      ((pages K = none ∧ F = []) ∨
        ∃ d rest, pages K = some (F ++ d :: rest) ∧ d ∈ (acc ++ crawlSeg P p K) ++ F) →
      crawlLoop pages fuel p acc = (acc ++ crawlSeg P p K) ++ F := by
  intro n
  induction n with
  | zero =>
    intro fuel p acc hn hpK hfuel hmid hnd hstop
    have hp : p = K := by omega
    subst hp
    rw [crawlSeg_empty, List.append_nil] at hnd hstop ⊢
    cases fuel with
    | zero => omega
    | succ fu =>
      rw [crawlLoop]
      rcases hstop with ⟨hnone, hF⟩ | ⟨d, rest, hsome, hd⟩
      · rw [hnone, hF, List.append_nil]
      · rw [hsome]
        show (match insertFresh acc (F ++ d :: rest) with
              | (acc2, true) => acc2
              | (acc2, false) => crawlLoop pages fu (p + 1) acc2)
            = acc ++ F
        rw [insertFresh_finds_dup F acc d rest hnd hd]
  | succ n ih =>
    intro fuel p acc hn hpK hfuel hmid hnd hstop
    have hpltK : p < K := by omega
    have hseg := crawlSeg_step P p K hpltK
    have hassoc : (acc ++ crawlSeg P p K) ++ F
        = ((acc ++ P p) ++ crawlSeg P (p + 1) K) ++ F := by
      rw [hseg, List.append_assoc acc (P p), ← List.append_assoc]
    rw [hassoc] at hnd hstop ⊢
    have hfresh : (acc ++ P p).Nodup := by
      have hsub : (acc ++ P p).Sublist (((acc ++ P p) ++ crawlSeg P (p + 1) K) ++ F) :=
        ((acc ++ P p).sublist_append_left _).trans
          (((acc ++ P p) ++ crawlSeg P (p + 1) K).sublist_append_left F)
      exact hnd.sublist hsub
    cases fuel with
    | zero => omega
    | succ fu =>
      have hstep : crawlLoop pages (fu + 1) p acc
          = crawlLoop pages fu (p + 1) (acc ++ P p) := by
        rw [crawlLoop, hmid p (Nat.le_refl p) hpltK]
        show (match insertFresh acc (P p) with
              | (acc2, true) => acc2
              | (acc2, false) => crawlLoop pages fu (p + 1) acc2)
            = crawlLoop pages fu (p + 1) (acc ++ P p)
        rw [insertFresh_all_fresh (P p) acc hfresh]
      rw [hstep]
      exact ih fu (p + 1) (acc ++ P p) (by omega) (by omega) (by omega)
        (fun j hj1 hj2 => hmid j (by omega) hj2) hnd hstop

/-- Claim C3: the crawler iterates pages from 1; let K be the first
page whose fetch errors (with nothing new pending) or whose content
hits an entry already accumulated (F being the fresh prefix of page K
accepted before the duplicate).  Then for any fuel ≥ K the crawl stops
there — pages beyond K never matter — and returns exactly the
deduplicated union of the entries collected before stopping, sorted by
extracted episode number ascending and containing no duplicate
entry. -/
theorem claim_c3_crawler (pages : Nat → Option (List EpisodeInfo))
    (P : Nat → List EpisodeInfo) (K fuel : Nat) (F : List EpisodeInfo)
    (hK : 1 ≤ K) (hfuel : K ≤ fuel)
    (hmid : ∀ j, 1 ≤ j → j < K → pages j = some (P j))
    (hnd : (crawlSeg P 1 K ++ F).Nodup)
    (hstop : (pages K = none ∧ F = []) ∨
      ∃ d rest, pages K = some (F ++ d :: rest) ∧ d ∈ crawlSeg P 1 K ++ F) :
    (getAllEpisodeLinks pages fuel).Perm (crawlSeg P 1 K ++ F)
      ∧ List.Sorted epLe (getAllEpisodeLinks pages fuel)
      ∧ (getAllEpisodeLinks pages fuel).Nodup := by
  have hrun : crawlLoop pages fuel 1 [] = ([] ++ crawlSeg P 1 K) ++ F :=
    crawlLoop_run pages P K F (K - 1) fuel 1 [] rfl hK (by omega) hmid
      (by simpa using hnd)
      (by
        rcases hstop with h1 | ⟨d, rest, hsome, hd⟩
        · exact Or.inl h1
        · exact Or.inr ⟨d, rest, hsome, by simpa using hd⟩)
  rw [getAllEpisodeLinks, hrun]
  simp only [List.nil_append]
  refine ⟨List.perm_insertionSort _ _, List.sorted_insertionSort _ _, ?_⟩
  exact (List.perm_insertionSort _ _).nodup_iff.mpr hnd

/-- Closed instance of claim C3: every page serves the same two
entries, so page 2 re-serves page 1 and the crawl stops there with
exactly those two entries, sorted. -/
theorem claim_c3_witness :
    (getAllEpisodeLinks samplePages 10).Perm (crawlSeg samplePageContent 1 2 ++ [])
      ∧ List.Sorted epLe (getAllEpisodeLinks samplePages 10)
      ∧ (getAllEpisodeLinks samplePages 10).Nodup :=
  claim_c3_crawler samplePages samplePageContent 2 10 []
    (by decide) (by decide)
    (by
      intro j h1 h2
      have hj : j = 1 := by omega
      subst hj
      rfl)
    (by decide)
    (Or.inr ⟨sampleEp '1', [sampleEp '2'], rfl, by decide⟩)

/-- Claim C8 as stated is false on src/unnamed/part_000: its dedup set
is keyed by the whole `EpisodeInfo` struct, so when page 2 re-serves an
already-seen URL under a different title the crawl does NOT treat it
as the same entry (it keeps crawling), and the finalized catalog holds
that URL twice. -/
theorem claim_c8_cex :
    (getAllEpisodeLinks cexPages 10).map EpisodeInfo.url = [dupURL, dupURL]
      ∧ ¬ ((getAllEpisodeLinks cexPages 10).map EpisodeInfo.url).Nodup := by
  constructor
  · decide
  · decide

theorem insertFresh_nodup [DecidableEq α] :
    ∀ (es acc : List α), acc.Nodup → (insertFresh acc es).1.Nodup := by
  intro es
  induction es with
  | nil =>
    intro acc h
    simpa [insertFresh] using h
  | cons e es ih =>
    intro acc h
    rw [insertFresh]
    by_cases he : e ∈ acc
    · rw [if_pos he]
      exact h
    · rw [if_neg he]
      apply ih
      rw [List.nodup_append]
      refine ⟨h, List.nodup_singleton e, ?_⟩
      intro a ha hae
      rw [List.mem_singleton] at hae
      exact he (hae ▸ ha)

theorem crawlLoop_nodup [DecidableEq α] (pages : Nat → Option (List α)) :
    ∀ (fuel p : Nat) (acc : List α), acc.Nodup → (crawlLoop pages fuel p acc).Nodup := by
  intro fuel
  induction fuel with
  | zero =>
    intro p acc h
    simpa [crawlLoop] using h
  | succ fu ih =>
    intro p acc h
    rw [crawlLoop]
    cases hp : pages p with
    | none => exact h
    | some eps =>
      show (match insertFresh acc eps with
            | (acc2, true) => acc2
            | (acc2, false) => crawlLoop pages fu (p + 1) acc2).Nodup
      have h2 : (insertFresh acc eps).1.Nodup := insertFresh_nodup eps acc h
      rcases hins : insertFresh acc eps with ⟨acc2, b⟩
      rw [hins] at h2
      cases b with
      | true => exact h2
      | false => exact ih (p + 1) acc2 h2

/-- Claim C8, amended: entry identity for the pagination-termination
dedup differs between the two revisions.  In src/unnamed/part_000 the
set is keyed by the full (url, title) struct, so the finalized catalog
contains each (url, title) PAIR at most once, but a URL may appear
twice under different titles (see the counterexample).  In src/main.go
the set is keyed by the URL string alone, so that catalog contains
each URL at most once. -/
theorem claim_c8_amended (pages : Nat → Option (List EpisodeInfo))
    (pagesM : Nat → Option (List Str)) (fuel fuelM : Nat) :
    (getAllEpisodeLinks pages fuel).Nodup
      ∧ (getAllEpisodeLinksMain pagesM fuelM).Nodup := by
  constructor
  · rw [getAllEpisodeLinks]
    exact (List.perm_insertionSort _ _).nodup_iff.mpr
      (crawlLoop_nodup pages fuel 1 [] List.nodup_nil)
  · rw [getAllEpisodeLinksMain]
    exact (List.perm_insertionSort _ _).nodup_iff.mpr
      (crawlLoop_nodup pagesM fuelM 1 [] List.nodup_nil)

theorem saveLoop_no_exit (linkFx : Str → LinkFx) :
    ∀ links : List Str,
      (∀ l ∈ links, strContains l gifPat = false → linkFx l ≠ .transportErr) →
      (saveLoop linkFx links).2 ≠ LoopOut.exitNow := by
  intro links
  induction links with
  | nil =>
    intro h
    simp [saveLoop]
  | cons l ls ih =>
    intro h
    have hrec := ih (fun x hx hg => h x (List.mem_cons_of_mem l hx) hg)
    rw [saveLoop]
    by_cases hg : strContains l gifPat = true
    · rw [if_pos hg]
      exact hrec
    · rw [if_neg hg]
      cases hfx : linkFx l with
      | transportErr =>
        exact absurd hfx (h l (List.mem_cons_self l ls) (Bool.not_eq_true _ ▸ hg))
      | decodeErr m => simp
      | okFx => simpa using hrec

theorem saveBatch_no_exit (fileVerify : Bool) (statOk : Str → Bool)
    (linkFx : Str → LinkFx) (saveFx : Str → Option Str)
    (title lang format : Str) (b : EpisodeBatch)
    (h : ∀ l ∈ b.imgLinks, strContains l gifPat = false → linkFx l ≠ .transportErr) :
    (saveBatch fileVerify statOk linkFx saveFx title lang format b).2
      ≠ BatchResult.exited := by
  rw [saveBatch]
  by_cases hv : (!fileVerify || !statOk (outFilePath title lang b.title format)) = true
  · rw [if_pos hv]
    have hnx := saveLoop_no_exit linkFx b.imgLinks h
    rcases hsl : saveLoop linkFx b.imgLinks with ⟨evs, out⟩
    rw [hsl] at hnx
    cases out with
    | done =>
      cases hsf : saveFx (outFilePath title lang b.title format) with
      | some m => simp
      | none => simp
    | panicked m => simp
    | exitNow => exact absurd rfl hnx
  · rw [if_neg hv]
    simp

theorem runBatches_eq_map (fileVerify : Bool) (statOk : Str → Bool)
    (linkFx : Str → LinkFx) (saveFx : Str → Option Str) (title lang format : Str) :
    ∀ bs : List EpisodeBatch,
      (∀ b ∈ bs, ∀ l ∈ b.imgLinks,
        strContains l gifPat = false → linkFx l ≠ .transportErr) →
      runBatches fileVerify statOk linkFx saveFx title lang format bs
        = bs.map (saveBatch fileVerify statOk linkFx saveFx title lang format) := by
  intro bs
  induction bs with
  | nil =>
    intro h
    rfl
  | cons b bs ih =>
    intro h
    have hb : (saveBatch fileVerify statOk linkFx saveFx title lang format b).2
        ≠ BatchResult.exited :=
      saveBatch_no_exit fileVerify statOk linkFx saveFx title lang format b
        (h b (List.mem_cons_self b bs))
    rw [runBatches, List.map_cons, ← ih (fun x hx => h x (List.mem_cons_of_mem b hx))]
    show (if (saveBatch fileVerify statOk linkFx saveFx title lang format b).2
            = BatchResult.exited
          then [saveBatch fileVerify statOk linkFx saveFx title lang format b]
          else saveBatch fileVerify statOk linkFx saveFx title lang format b ::
            runBatches fileVerify statOk linkFx saveFx title lang format bs)
        = saveBatch fileVerify statOk linkFx saveFx title lang format b ::
            runBatches fileVerify statOk linkFx saveFx title lang format bs
    rw [if_neg hb]

/-- Claim C1 as stated is false on the code: an image-FETCH failure
does not abort only its own batch.  `fetchImage` (src/unnamed/part_000
lines 376-404) calls `os.Exit(1)` on a transport error, which kills
the whole process and bypasses every per-batch recover; under the pool
schedule modelled by `runBatches`, batch 2 — which on its own would
have saved its output file — produces no outcome at all.  (Only
builder/decode and save errors panic and are recovered per batch.) -/
theorem claim_c1_cex :
    ((runBatches false (fun _ => false) cexLinkFx (fun _ => none)
        (("t").data) (("en").data) (("pdf").data) [cexBatch1, cexBatch2]).map Prod.snd
      = [BatchResult.exited])
      ∧ (saveBatch false (fun _ => false) cexLinkFx (fun _ => none)
          (("t").data) (("en").data) (("pdf").data) cexBatch2).2
        = BatchResult.saved
            (outFilePath (("t").data) (("en").data) (("b2").data) (("pdf").data)) := by
  refine ⟨by decide, by decide⟩

/-- Claim C1, amended: batch-failure isolation holds for the failures
the batch boundary can see — output-builder (image decode) errors and
file-save errors panic and are caught by the per-goroutine recover —
but not for image-fetch transport errors, which call `os.Exit(1)` and
terminate the whole process.  When no non-gif link of any batch hits a
transport error, every dispatched batch runs to completion
independently: the executor yields exactly one outcome per batch, each
equal to the outcome `saveBatch` would give that batch alone, so a
batch whose decode or save fails is reported `recovered` while every
sibling batch still produces its own output. -/
theorem claim_c1_isolation (fileVerify : Bool) (statOk : Str → Bool)
    (linkFx : Str → LinkFx) (saveFx : Str → Option Str) (title lang format : Str)
    (bs : List EpisodeBatch)
    (h : ∀ b ∈ bs, ∀ l ∈ b.imgLinks,
      strContains l gifPat = false → linkFx l ≠ .transportErr) :
    runBatches fileVerify statOk linkFx saveFx title lang format bs
      = bs.map (saveBatch fileVerify statOk linkFx saveFx title lang format) :=
  runBatches_eq_map fileVerify statOk linkFx saveFx title lang format bs h

/-- Closed instance of the amended claim C1: batch 1's image decodes
badly (its job is recovered), batch 2 still saves its own file. -/
theorem claim_c1_witness :
    runBatches false (fun _ => false) decodeLinkFx (fun _ => none)
        (("t").data) (("en").data) (("pdf").data) [cexBatch1, cexBatch2]
      = [cexBatch1, cexBatch2].map (saveBatch false (fun _ => false) decodeLinkFx
          (fun _ => none) (("t").data) (("en").data) (("pdf").data)) :=
  claim_c1_isolation false (fun _ => false) decodeLinkFx (fun _ => none)
    (("t").data) (("en").data) (("pdf").data) [cexBatch1, cexBatch2] (by decide)

/-- Claim C10's exclusion clause is false on the code: after a run
whose final batch (episode 3) failed with a recovered panic, the
progress row still records `last_chapter = 3`; the next
database-driven run sets `opts.minEp = last_chapter = 3`, and the
inclusive range filter re-includes episode 3 — an episode of the
failed batch is NOT excluded from the resumed run. -/
theorem claim_c10_cex :
    (getWebtoonRun false (fun _ => false) decodeLinkFx (fun _ => none)
        (("t").data) (("en").data) (("pdf").data) [g1Batch, g2Batch]).2 = some 3
      ∧ (runBatches false (fun _ => false) decodeLinkFx (fun _ => none)
          (("t").data) (("en").data) (("pdf").data) [g1Batch, g2Batch]).map Prod.snd
        = [BatchResult.saved
              (outFilePath (("t").data) (("en").data) (("g1").data) (("pdf").data)),
            BatchResult.recovered (("bad image").data)]
      ∧ resumeIncluded 3 3 = true := by
  refine ⟨by decide, by decide, by decide⟩

/-- Claim C10, amended: after all dispatched batches of a series
complete (no fetch-transport error killed the process), the progress
record is upserted with `last_chapter` equal to the final batch's
`maxEp` unconditionally — including when one or more batches failed
and their panics were recovered.  Consequently an episode is excluded
from the next resumed run's range exactly when its number is strictly
below `last_chapter`; episodes of a failed batch numbered below
`last_chapter` are silently skipped, while the episode numbered
exactly `last_chapter` is re-included. -/
theorem claim_c10_progress (fileVerify : Bool) (statOk : Str → Bool)
    (linkFx : Str → LinkFx) (saveFx : Str → Option Str) (title lang format : Str)
    (bs : List EpisodeBatch) (hne : bs ≠ [])
    (h : ∀ b ∈ bs, ∀ l ∈ b.imgLinks,
      strContains l gifPat = false → linkFx l ≠ .transportErr) :
    (getWebtoonRun fileVerify statOk linkFx saveFx title lang format bs).2
        = some (bs.getLastD default).maxEp
      ∧ ∀ n : Nat, resumeIncluded (bs.getLastD default).maxEp n = false
          ↔ n < (bs.getLastD default).maxEp := by
  have hemp : bs.isEmpty = false := by
    cases bs with
    | nil => exact absurd rfl hne
    | cons x xs => rfl
  have hmap := runBatches_eq_map fileVerify statOk linkFx saveFx title lang format bs h
  have hany : (runBatches fileVerify statOk linkFx saveFx title lang format bs).any
      (fun r => decide (r.2 = BatchResult.exited)) = false := by
    rw [hmap, List.any_eq_false]
    intro r hr
    obtain ⟨b, hb, hrb⟩ := List.mem_map.mp hr
    have hnb := saveBatch_no_exit fileVerify statOk linkFx saveFx title lang format b
      (h b hb)
    rw [hrb] at hnb
    simp [hnb]
  constructor
  · simp [getWebtoonRun, hemp, hany]
  · intro n
    simp [resumeIncluded]

/-- Closed instance of the amended claim C10: with batch g2 (episode
3) failing by a recovered panic, the upsert still records 3. -/
theorem claim_c10_witness :
    (getWebtoonRun false (fun _ => false) decodeLinkFx (fun _ => none)
        (("t").data) (("en").data) (("pdf").data) [g1Batch, g2Batch]).2
      = some ([g1Batch, g2Batch].getLastD default).maxEp :=
  (claim_c10_progress false (fun _ => false) decodeLinkFx (fun _ => none)
    (("t").data) (("en").data) (("pdf").data) [g1Batch, g2Batch]
    (by decide) (by decide)).1
